import Mathlib

/-!
Verification of the per-bucket lock of `scalable-concurrent-containers`
(`src/map/cell.rs`): the 32-bit lock-word encoding, the exclusive
acquisition CAS loop, the release path, and the wait-queue wakeup
protocol. Lock words are modelled as `Nat` values below `2 ^ 32`; each
atomic CAS loop is modelled as a function over an explicit trace of the
values the atomic actually holds at each `compare_exchange`, so that
concurrent interference appears as the trace and a quiescent execution is
the constant trace.
-/

namespace CellSpec

/-- The size of the `u32` value space; every lock word is below this. -/
def U32 : Nat := 2 ^ 32

/-- Bitwise complement on `u32`: Rust `!x` for a 32-bit unsigned `x`. -/
def compl32 (x : Nat) : Nat := x ^^^ (U32 - 1)

namespace Cell

/-- Source: `const LOCK_MASK: u32 = (!(0 as u32)) << 8;` (shift wraps at 32 bits). -/
def LOCK_MASK : Nat := (compl32 0 <<< 8) % U32

/-- Source: `const XLOCK: u32 = 1 << 31;` -/
def XLOCK : Nat := 1 <<< 31

/-- Source: `const SLOCK_MAX: u32 = Self::LOCK_MASK & (!Self::XLOCK);` -/
def SLOCK_MAX : Nat := LOCK_MASK &&& compl32 XLOCK

/-- Source: `const SLOCK: u32 = 1 << 8;` -/
def SLOCK : Nat := 1 <<< 8

/-- Source: `const SIZE_MASK: u32 = 1 << 8 - 1;` — by Rust operator precedence the
subtraction binds tighter, so this is `1 << (8 - 1)`. -/
def SIZE_MASK : Nat := 1 <<< (8 - 1)

/-- Source: `const SIZE_MAX: u32 = Self::SIZE_MASK;` -/
def SIZE_MAX : Nat := SIZE_MASK

end Cell

/-- Outcome of the CAS loop of `CellLocker::try_lock_exclusive`. -/
inductive TryResult where
  | acquired (oldWord newWord guardMeta : Nat)
  | failed (observed : Nat)
  | pending (current : Nat)
deriving DecidableEq

/-- The CAS loop of `CellLocker::try_lock_exclusive`. `current` is the last
value read from the atomic (initially `metadata.load(Relaxed)`), and
`actuals` is the trace of values the atomic holds at each successive
`compare_exchange(current & !XLOCK, current | XLOCK, ..)`. A CAS succeeds
exactly when the atomic's value equals the expected `current & !XLOCK`; on
success the loop returns a guard recording `result | XLOCK`; on failure it
returns `None` if the observed value has the exclusive bit set, and
otherwise retries with `current` updated to the observed value. -/
def try_lock_exclusive (current : Nat) (actuals : List Nat) : TryResult :=
  match actuals with
  | [] => .pending current
  | a :: rest =>
    if a = current &&& compl32 Cell.XLOCK then
      .acquired a (current ||| Cell.XLOCK) (a ||| Cell.XLOCK)
    else if a &&& Cell.XLOCK = Cell.XLOCK then
      .failed a
    else
      try_lock_exclusive a rest

/-- Outcome of the CAS loop of `impl Drop for CellLocker`. -/
inductive DropResult where
  | panicked (current : Nat)
  | installed (oldWord newWord : Nat)
  | pending (current : Nat)
deriving DecidableEq

/-- The successor word computed by `CellLocker::drop`: clear the exclusive
bit when it is set, otherwise subtract one shared unit (`u32` wrapping
subtraction). -/
def release_word (current : Nat) : Nat :=
  if current &&& Cell.XLOCK = Cell.XLOCK then
    current &&& compl32 Cell.XLOCK
  else
    (current + U32 - Cell.SLOCK) % U32

/-- The CAS loop of `impl Drop for CellLocker`, trace-style as in
`try_lock_exclusive`; `current` starts at the guard's recorded metadata.
Each iteration first runs `assert!(current & LOCK_MASK != 0)` (modelled by
`panicked`), then attempts `compare_exchange(current, new, ..)` where `new`
is `release_word current`; on failure it retries with the observed value. -/
def drop_locker (current : Nat) (actuals : List Nat) : DropResult :=
  match actuals with
  | [] =>
    if current &&& Cell.LOCK_MASK = 0 then .panicked current else .pending current
  | a :: rest =>
    if current &&& Cell.LOCK_MASK = 0 then
      .panicked current
    else if a = current then
      .installed current (release_word current)
    else
      drop_locker a rest

/-! Bridge lemmas turning the bitwise operations of the source constants
into division/remainder arithmetic, so that `omega` can finish goals. -/

/-- Masking against a shifted mask inspects the shifted-down word. -/
theorem land_shiftLeft_eq (w m k : Nat) :
    w &&& (m <<< k) = ((w >>> k) &&& m) <<< k := by
  apply Nat.eq_of_testBit_eq
  intro i
  simp only [Nat.testBit_and, Nat.testBit_shiftLeft, Nat.testBit_shiftRight]
  by_cases hk : k ≤ i
  · simp [hk, Nat.add_sub_cancel' hk]
  · simp [hk]

/-- Arithmetic form of masking with `LOCK_MASK`. -/
theorem land_LOCK_MASK_eq (w : Nat) :
    w &&& Cell.LOCK_MASK = (w / 2 ^ 8 % 2 ^ 24) * 2 ^ 8 := by
  have h : Cell.LOCK_MASK = (2 ^ 24 - 1) <<< 8 := by decide
  rw [h, land_shiftLeft_eq, Nat.shiftRight_eq_div_pow,
    Nat.and_pow_two_sub_one_eq_mod, Nat.shiftLeft_eq]

/-- Arithmetic form of masking with `SLOCK_MAX`. -/
theorem land_SLOCK_MAX_eq (w : Nat) :
    w &&& Cell.SLOCK_MAX = (w / 2 ^ 8 % 2 ^ 23) * 2 ^ 8 := by
  have h : Cell.SLOCK_MAX = (2 ^ 23 - 1) <<< 8 := by decide
  rw [h, land_shiftLeft_eq, Nat.shiftRight_eq_div_pow,
    Nat.and_pow_two_sub_one_eq_mod, Nat.shiftLeft_eq]

/-- Arithmetic form of masking with `XLOCK`. -/
theorem land_XLOCK_eq (w : Nat) :
    w &&& Cell.XLOCK = (w / 2 ^ 31 % 2) * 2 ^ 31 := by
  have h : Cell.XLOCK = 1 <<< 31 := by decide
  rw [h, land_shiftLeft_eq, Nat.shiftRight_eq_div_pow,
    Nat.and_one_is_mod, Nat.shiftLeft_eq]

/-- Masking with the complement of `XLOCK` truncates to the low 31 bits. -/
theorem land_compl_XLOCK_eq (w : Nat) :
    w &&& compl32 Cell.XLOCK = w % 2 ^ 31 := by
  have h : compl32 Cell.XLOCK = 2 ^ 31 - 1 := by decide
  rw [h, Nat.and_pow_two_sub_one_eq_mod]

/-- The exclusive bit as a power of two. -/
theorem XLOCK_val : Cell.XLOCK = 2 ^ 31 := by decide

/-- Truncating to 31 bits before setting the exclusive bit loses nothing
beyond bit 31 for a 32-bit word. -/
theorem mod31_lor_XLOCK (c : Nat) (hc : c < U32) :
    (c % 2 ^ 31) ||| Cell.XLOCK = c ||| Cell.XLOCK := by
  have hc' : c < 2 ^ 32 := hc
  apply Nat.eq_of_testBit_eq
  intro i
  simp only [Nat.testBit_or, XLOCK_val, Nat.testBit_two_pow, Nat.testBit_mod_two_pow]
  by_cases h31 : 31 = i
  · simp [h31]
  · by_cases hlt : i < 31
    · simp [hlt, h31]
    · have hge : 32 ≤ i := by omega
      have hci : c < 2 ^ i := lt_of_lt_of_le hc' (Nat.pow_le_pow_right (by norm_num) hge)
      simp [Nat.testBit_lt_two_pow hci, hlt, h31]

/-- Whenever the `try_lock_exclusive` CAS loop acquires the lock, the word
it replaced had the exclusive bit clear, the installed word is that word
with the exclusive bit additionally set (all other bits preserved), and the
guard records the installed word. -/
theorem try_acquired_spec (actuals : List Nat) :
    ∀ current old nw meta, current < U32 → (∀ a ∈ actuals, a < U32) →
    try_lock_exclusive current actuals = .acquired old nw meta →
    old &&& Cell.XLOCK = 0 ∧ nw = old ||| Cell.XLOCK ∧ meta = nw ∧
    (∀ i, i ≠ 31 → Nat.testBit nw i = Nat.testBit old i) ∧
    Nat.testBit nw 31 = true := by
  induction actuals with
  | nil =>
    intro current old nw meta hcur hact h
    simp [try_lock_exclusive] at h
  | cons a rest ih =>
    intro current old nw meta hcur hact h
    rw [try_lock_exclusive] at h
    by_cases hif : a = current &&& compl32 Cell.XLOCK
    · rw [if_pos hif] at h
      injection h with ho hn hm
      subst ho hn hm
      have hmod : a = current % 2 ^ 31 := by rw [hif, land_compl_XLOCK_eq]
      have ha31 : a < 2 ^ 31 := by omega
      have hnw : current ||| Cell.XLOCK = a ||| Cell.XLOCK := by
        rw [hmod]
        exact (mod31_lor_XLOCK current hcur).symm
      refine ⟨?_, hnw, hnw.symm, ?_, ?_⟩
      · rw [land_XLOCK_eq]
        omega
      · intro i hi
        rw [hnw]
        simp only [Nat.testBit_or, XLOCK_val, Nat.testBit_two_pow]
        rw [decide_eq_false (by omega : ¬(31 = i))]
        simp
      · rw [hnw]
        simp only [Nat.testBit_or, Bool.or_eq_true]
        right
        decide
    · rw [if_neg hif] at h
      by_cases hx : a &&& Cell.XLOCK = Cell.XLOCK
      · rw [if_pos hx] at h
        exact absurd h (by simp)
      · rw [if_neg hx] at h
        exact ih a old nw meta (hact a (by simp)) (fun b hb => hact b (by simp [hb])) h

/-- Whenever the `try_lock_exclusive` CAS loop gives up, the CAS failure it
gave up on observed the exclusive bit already set. -/
theorem try_failed_spec (actuals : List Nat) :
    ∀ current obs, try_lock_exclusive current actuals = .failed obs →
    obs &&& Cell.XLOCK = Cell.XLOCK := by
  induction actuals with
  | nil =>
    intro current obs h
    simp [try_lock_exclusive] at h
  | cons a rest ih =>
    intro current obs h
    rw [try_lock_exclusive] at h
    by_cases hif : a = current &&& compl32 Cell.XLOCK
    · rw [if_pos hif] at h
      exact absurd h (by simp)
    · rw [if_neg hif] at h
      by_cases hx : a &&& Cell.XLOCK = Cell.XLOCK
      · rw [if_pos hx] at h
        injection h with ho
        rw [← ho]
        exact hx
      · rw [if_neg hx] at h
        exact ih a obs h

/-- Claim C1: a successful `try_lock_exclusive` transitions the lock word
from a value with the exclusive bit clear to the same value with only the
exclusive bit set (entry-count and shared-count bits preserved) and the
guard records the new word; it returns `None` exactly when a CAS failure
observed the exclusive bit already set; otherwise (failure with the word
observably free) it keeps retrying. -/
theorem claim_C1_try_lock_exclusive (current : Nat) (actuals : List Nat)
    (hcur : current < U32) (hact : ∀ a ∈ actuals, a < U32) :
    (∀ old nw meta, try_lock_exclusive current actuals = .acquired old nw meta →
      old &&& Cell.XLOCK = 0 ∧ nw = old ||| Cell.XLOCK ∧ meta = nw ∧
      (∀ i, i ≠ 31 → Nat.testBit nw i = Nat.testBit old i) ∧
      Nat.testBit nw 31 = true) ∧
    (∀ obs, try_lock_exclusive current actuals = .failed obs →
      obs &&& Cell.XLOCK = Cell.XLOCK) ∧
    (∀ a rest, actuals = a :: rest → a ≠ current &&& compl32 Cell.XLOCK →
      a &&& Cell.XLOCK ≠ Cell.XLOCK →
      try_lock_exclusive current actuals = try_lock_exclusive a rest) := by
  refine ⟨fun old nw meta h => try_acquired_spec actuals current old nw meta hcur hact h,
    fun obs h => try_failed_spec actuals current obs h, ?_⟩
  intro a rest heq hne hx
  subst heq
  rw [try_lock_exclusive, if_neg hne, if_neg hx]

/-- Concrete instance of claim C1: acquiring from the word 66 (two chain
entries cached, free lock) sets exactly the exclusive bit. -/
theorem claim_C1_witness :
    (66 : Nat) < U32 ∧ (66 : Nat) &&& Cell.XLOCK = 0 ∧
    Nat.testBit ((66 : Nat) ||| Cell.XLOCK) 1 = Nat.testBit 66 1 ∧
    Nat.testBit ((66 : Nat) ||| Cell.XLOCK) 31 = true := by
  have h := (claim_C1_try_lock_exclusive 66 [66] (by decide) (by decide)).1 66
    (66 ||| Cell.XLOCK) (66 ||| Cell.XLOCK) (by decide)
  exact ⟨by decide, h.1, h.2.2.2.1 1 (by decide), h.2.2.2.2⟩

/-- The shared unit as a numeral. -/
theorem SLOCK_val : Cell.SLOCK = 256 := by decide

/-- The `u32` value-space bound as a numeral. -/
theorem U32_val : U32 = 4294967296 := by decide

/-- Claim C2 (code defect): by Rust operator precedence the source
expression `1 << 8 - 1` is `1 << (8 - 1)`, so the compiled entry-count
mask is the single bit 128, not the full 8-bit mask 255 that the declared
bits 0–7 layout requires; `SIZE_MAX` inherits the same value. -/
theorem claim_C2_size_mask_defect :
    Cell.SIZE_MASK = 128 ∧ Cell.SIZE_MAX = 128 ∧
    Cell.SIZE_MASK ≠ 255 ∧ Cell.SIZE_MAX ≠ 255 := by decide

/-- Whenever the release CAS loop installs a word, the word it replaced
passed the lock-bit assertion and the installed word is `release_word` of
the replaced word. -/
theorem drop_installed_spec (actuals : List Nat) :
    ∀ current old nw, drop_locker current actuals = .installed old nw →
    old &&& Cell.LOCK_MASK ≠ 0 ∧ nw = release_word old := by
  induction actuals with
  | nil =>
    intro current old nw h
    rw [drop_locker] at h
    by_cases hz : current &&& Cell.LOCK_MASK = 0
    · rw [if_pos hz] at h
      exact absurd h (by simp)
    · rw [if_neg hz] at h
      exact absurd h (by simp)
  | cons a rest ih =>
    intro current old nw h
    rw [drop_locker] at h
    by_cases hz : current &&& Cell.LOCK_MASK = 0
    · rw [if_pos hz] at h
      exact absurd h (by simp)
    · rw [if_neg hz] at h
      by_cases ha : a = current
      · rw [if_pos ha] at h
        injection h with h1 h2
        subst h1 h2
        exact ⟨hz, rfl⟩
      · rw [if_neg ha] at h
        exact ih a old nw h

/-- Claim C3: for every lock word with at least one lock bit set, release
installs exactly one change — if the exclusive bit is set it clears
precisely that bit, otherwise it subtracts exactly one shared unit — and
in both cases the entry-count subfield (bits 0–7) is unchanged; the
release CAS loop installs exactly `release_word` of the word it replaced. -/
theorem claim_C3_release (w : Nat) (hw : w < U32) (hl : w &&& Cell.LOCK_MASK ≠ 0) :
    (w &&& Cell.XLOCK = Cell.XLOCK →
      release_word w = w &&& compl32 Cell.XLOCK ∧
      Nat.testBit (release_word w) 31 = false ∧
      (∀ i, i ≠ 31 → Nat.testBit (release_word w) i = Nat.testBit w i)) ∧
    (w &&& Cell.XLOCK ≠ Cell.XLOCK →
      Cell.SLOCK ≤ w ∧ release_word w = w - Cell.SLOCK) ∧
    release_word w % 2 ^ 8 = w % 2 ^ 8 ∧
    (∀ m actuals nw, drop_locker m actuals = .installed w nw → nw = release_word w) := by
  have hw' : w < 2 ^ 32 := hw
  have hlm := land_LOCK_MASK_eq w
  have hge : 2 ^ 8 ≤ w := by omega
  refine ⟨?_, ?_, ?_, ?_⟩
  · intro hx
    rw [release_word, if_pos hx, land_compl_XLOCK_eq]
    refine ⟨rfl, ?_, ?_⟩
    · rw [Nat.testBit_mod_two_pow]
      simp
    · intro i hi
      by_cases hlt : i < 31
      · rw [Nat.testBit_mod_two_pow]
        simp [hlt]
      · have hgei : 32 ≤ i := by omega
        have hci : w < 2 ^ i := lt_of_lt_of_le hw' (Nat.pow_le_pow_right (by norm_num) hgei)
        have hmi : w % 2 ^ 31 < 2 ^ i := lt_of_le_of_lt (Nat.mod_le w (2 ^ 31)) hci
        rw [Nat.testBit_lt_two_pow hmi, Nat.testBit_lt_two_pow hci]
  · intro hx
    refine ⟨by rw [SLOCK_val]; omega, ?_⟩
    rw [release_word, if_neg hx, SLOCK_val, U32_val]
    omega
  · rw [release_word]
    by_cases hx : w &&& Cell.XLOCK = Cell.XLOCK
    · rw [if_pos hx, land_compl_XLOCK_eq]
      omega
    · rw [if_neg hx, SLOCK_val, U32_val]
      omega
  · intro m actuals nw h
    exact (drop_installed_spec actuals m w nw h).2

/-- Concrete instance of claim C3: releasing the word with the exclusive
bit set over two cached entries clears exactly the exclusive bit,
preserving the entry-count subfield. -/
theorem claim_C3_witness :
    (2147483714 : Nat) < U32 ∧ (2147483714 : Nat) &&& Cell.LOCK_MASK ≠ 0 ∧
    release_word 2147483714 = 2147483714 &&& compl32 Cell.XLOCK ∧
    Nat.testBit (release_word 2147483714) 31 = false ∧
    release_word 2147483714 % 2 ^ 8 = 2147483714 % 2 ^ 8 := by
  have h := claim_C3_release 2147483714 (by decide) (by decide)
  have h1 := h.1 (by decide)
  exact ⟨by decide, by decide, h1.1, h1.2.1, h.2.2.1⟩

/-- With the cell's word free of lock bits, the release CAS loop never
installs anything, whatever its starting metadata. -/
theorem drop_replicate_no_install (w : Nat) (hw : w &&& Cell.LOCK_MASK = 0) :
    ∀ n m old nw, drop_locker m (List.replicate n w) ≠ .installed old nw := by
  intro n
  induction n with
  | zero =>
    intro m old nw h
    rw [List.replicate, drop_locker] at h
    by_cases hm : m &&& Cell.LOCK_MASK = 0
    · rw [if_pos hm] at h
      exact absurd h (by simp)
    · rw [if_neg hm] at h
      exact absurd h (by simp)
  | succ k ihk =>
    intro m old nw h
    rw [List.replicate, drop_locker] at h
    by_cases hm : m &&& Cell.LOCK_MASK = 0
    · rw [if_pos hm] at h
      exact absurd h (by simp)
    · rw [if_neg hm] at h
      have hne : w ≠ m := fun he => hm (he ▸ hw)
      rw [if_neg hne] at h
      exact ihk w old nw h

/-- Claim C4: a release attempt while the Cell's lock word has no lock
bits set deterministically reaches the assertion failure (panic) and never
installs a new word, for every guard metadata value. -/
theorem claim_C4_release_unlocked_panics (m w : Nat) (hw : w &&& Cell.LOCK_MASK = 0) :
    (drop_locker m [w] = .panicked m ∨ drop_locker m [w] = .panicked w) ∧
    (∀ n old nw, drop_locker m (List.replicate n w) ≠ .installed old nw) := by
  constructor
  · by_cases hm : m &&& Cell.LOCK_MASK = 0
    · left
      rw [drop_locker, if_pos hm]
    · right
      have hne : w ≠ m := fun he => hm (he ▸ hw)
      rw [drop_locker, if_neg hm, if_neg hne, drop_locker, if_pos hw]
  · exact fun n old nw h => drop_replicate_no_install w hw n m old nw h

/-- Concrete instance of claim C4: a guard recording an exclusive hold
dropped against a cell whose word shows no lock bits panics and installs
nothing. -/
theorem claim_C4_witness :
    (66 : Nat) &&& Cell.LOCK_MASK = 0 ∧
    (drop_locker 2147483714 [66] = .panicked 2147483714 ∨
      drop_locker 2147483714 [66] = .panicked 66) ∧
    drop_locker 2147483714 (List.replicate 2 66) ≠
      .installed 2147483714 (release_word 2147483714) := by
  have h := claim_C4_release_unlocked_panics 2147483714 66 (by decide)
  exact ⟨by decide, h.1, h.2 2 2147483714 (release_word 2147483714)⟩

/-- Claim C10: a lock word that passes the release assertion with the
exclusive bit clear carries at least one shared unit, so subtracting one
`SLOCK` neither wraps around zero nor borrows into the entry-count
subfield: bits 0–7 are identical before and after. -/
theorem claim_C10_shared_release_no_borrow (w : Nat) (hw : w < U32)
    (hl : w &&& Cell.LOCK_MASK ≠ 0) (hx : w &&& Cell.XLOCK = 0) :
    Cell.SLOCK ≤ w &&& Cell.SLOCK_MAX ∧
    Cell.SLOCK ≤ w ∧
    release_word w = w - Cell.SLOCK ∧
    (w - Cell.SLOCK) % 2 ^ 8 = w % 2 ^ 8 ∧
    (∀ i, i < 8 → Nat.testBit (w - Cell.SLOCK) i = Nat.testBit w i) := by
  have hw' : w < 2 ^ 32 := hw
  have hlm := land_LOCK_MASK_eq w
  have hxe := land_XLOCK_eq w
  have hsm := land_SLOCK_MAX_eq w
  have hx31 : w < 2 ^ 31 := by
    rw [hxe] at hx
    omega
  have hge : 2 ^ 8 ≤ w := by omega
  have hxne : ¬(w &&& Cell.XLOCK = Cell.XLOCK) := by
    rw [hx, XLOCK_val]
    decide
  have hmod : (w - Cell.SLOCK) % 2 ^ 8 = w % 2 ^ 8 := by
    rw [SLOCK_val]
    omega
  refine ⟨?_, by rw [SLOCK_val]; omega, ?_, hmod, ?_⟩
  · rw [hsm, SLOCK_val]
    omega
  · rw [release_word, if_neg hxne, SLOCK_val, U32_val]
    omega
  · intro i hi
    have e1 : Nat.testBit ((w - Cell.SLOCK) % 2 ^ 8) i = Nat.testBit (w - Cell.SLOCK) i := by
      rw [Nat.testBit_mod_two_pow]
      simp [hi]
    have e2 : Nat.testBit (w % 2 ^ 8) i = Nat.testBit w i := by
      rw [Nat.testBit_mod_two_pow]
      simp [hi]
    rw [← e1, ← e2, hmod]

/-- Concrete instance of claim C10: releasing a shared hold from the word
with shared count three over two cached entries leaves bits 0–7 intact. -/
theorem claim_C10_witness :
    (834 : Nat) < U32 ∧ (834 : Nat) &&& Cell.LOCK_MASK ≠ 0 ∧
    (834 : Nat) &&& Cell.XLOCK = 0 ∧
    Cell.SLOCK ≤ 834 &&& Cell.SLOCK_MAX ∧
    release_word 834 = 834 - Cell.SLOCK ∧
    (834 - Cell.SLOCK) % 2 ^ 8 = 834 % 2 ^ 8 := by
  have h := claim_C10_shared_release_no_borrow 834 (by decide) (by decide) (by decide)
  exact ⟨by decide, by decide, by decide, h.1, h.2.2.1, h.2.2.2.1⟩

/-- A quiescent non-blocking attempt on a free word acquires it in one CAS. -/
theorem try_lock_free (w : Nat) (hw : w < U32) (hx : w &&& Cell.XLOCK = 0) :
    try_lock_exclusive w [w] = .acquired w (w ||| Cell.XLOCK) (w ||| Cell.XLOCK) := by
  have hw' : w < 2 ^ 32 := hw
  have hx' : w / 2 ^ 31 % 2 * 2 ^ 31 = 0 := by
    rw [← land_XLOCK_eq, hx]
  have h31 : w < 2 ^ 31 := by omega
  have hexp : w &&& compl32 Cell.XLOCK = w := by
    rw [land_compl_XLOCK_eq]
    omega
  rw [try_lock_exclusive, if_pos hexp.symm]

/-- A quiescent non-blocking attempt on an exclusively held word fails in
one CAS, without retrying. -/
theorem try_lock_busy (w : Nat) (hw : w < U32) (hx : w &&& Cell.XLOCK = Cell.XLOCK) :
    try_lock_exclusive w [w] = .failed w := by
  have hw' : w < 2 ^ 32 := hw
  have hx' : w / 2 ^ 31 % 2 * 2 ^ 31 = 2 ^ 31 := by
    rw [← land_XLOCK_eq, hx, XLOCK_val]
  have h31 : 2 ^ 31 ≤ w := by omega
  have hne : ¬(w = w &&& compl32 Cell.XLOCK) := by
    rw [land_compl_XLOCK_eq]
    omega
  rw [try_lock_exclusive, if_neg hne, if_pos hx]

/-- A quiescent release succeeds in one CAS when the assertion passes. -/
theorem drop_self (w : Nat) (hl : w &&& Cell.LOCK_MASK ≠ 0) :
    drop_locker w [w] = .installed w (release_word w) := by
  rw [drop_locker, if_neg hl, if_pos rfl]

/-- Lock-word states reachable, in a quiescent interleaving, from a
default-constructed Cell through the operations of this fragment: default
construction (word 0), the successful acquisition CAS of
`try_lock_exclusive` (also used by the blocking path), and the release CAS
of the guard's `drop`. The Bool records whether a guard is live. -/
inductive Reach : Nat → Bool → Prop where
  | default_cell : Reach 0 false
  | acquire {w old nw meta : Nat} : Reach w false →
      try_lock_exclusive w [w] = .acquired old nw meta → Reach nw true
  | release {w nw : Nat} : Reach w true →
      drop_locker w [w] = .installed w nw → Reach nw false

/-- In this fragment no operation touches the entry-count subfield, so the
reachable words are exactly 0 (unlocked) and `XLOCK` (locked). -/
theorem reach_word_eq {w : Nat} {locked : Bool} (h : Reach w locked) :
    w = if locked then Cell.XLOCK else 0 := by
  induction h with
  | default_cell => rfl
  | acquire hr htry ih =>
    simp at ih
    rw [ih, try_lock_free 0 (by decide) (by decide)] at htry
    injection htry with h1 h2 h3
    rw [← h2]
    decide
  | release hr hdrop ih =>
    simp at ih
    rw [ih, drop_self Cell.XLOCK (by decide)] at hdrop
    injection hdrop with h1 h2
    rw [← h2]
    decide

/-- Claim C5: in every state reachable from a default-constructed Cell via
the operations of this fragment, the lock word has no lock bits set iff
the Cell is unlocked, and the exclusive bit and the shared-count field are
never both nonzero. -/
theorem claim_C5_lock_invariant (w : Nat) (locked : Bool) (h : Reach w locked) :
    (w &&& Cell.LOCK_MASK = 0 ↔ locked = false) ∧
    ¬(w &&& Cell.XLOCK ≠ 0 ∧ w &&& Cell.SLOCK_MAX ≠ 0) := by
  have he := reach_word_eq h
  cases locked
  · simp only [if_neg Bool.false_ne_true] at he
    subst he
    exact ⟨by decide, by decide⟩
  · simp only [if_pos rfl] at he
    subst he
    exact ⟨by decide, by decide⟩

/-- Concrete instance of claim C5: the locked state reached by acquiring a
fresh Cell satisfies the invariant. -/
theorem claim_C5_witness :
    Reach Cell.XLOCK true ∧
    (Cell.XLOCK &&& Cell.LOCK_MASK = 0 ↔ (true = false)) ∧
    ¬(Cell.XLOCK &&& Cell.XLOCK ≠ 0 ∧ Cell.XLOCK &&& Cell.SLOCK_MAX ≠ 0) := by
  have hr : Reach Cell.XLOCK true :=
    Reach.acquire Reach.default_cell
      (by decide : try_lock_exclusive 0 [0] = .acquired 0 Cell.XLOCK Cell.XLOCK)
  exact ⟨hr, (claim_C5_lock_invariant Cell.XLOCK true hr).1,
    (claim_C5_lock_invariant Cell.XLOCK true hr).2⟩

/-- Outcome of the detach CAS loop of `CellLocker::wakeup`. The wait queue
is modelled as the list of nodes reachable from the head pointer, most
recently pushed first; the null pointer is the empty list. -/
inductive WakeResult where
  | emptyObserved
  | detached (q : List Nat)
  | pending (observed : List Nat)
deriving DecidableEq

/-- The detach loop of `CellLocker::wakeup`: `observed` is the last loaded
head, `actuals` the head value at each `compare_exchange(observed, null)`.
On CAS failure the loop returns when the newly observed head is null and
otherwise retries; on success the detached list is privately owned. -/
def wakeup_detach (observed : List Nat) (actuals : List (List Nat)) : WakeResult :=
  match actuals with
  | [] => .pending observed
  | a :: rest =>
    if a = observed then .detached observed
    else if a = [] then .emptyObserved
    else wakeup_detach a rest

/-- The signal walk of `CellLocker::wakeup`: starting from the detached
head, follow each node's `next` pointer, calling `signal()` on every node;
the result lists the nodes in the order they are signalled. -/
def signal_walk : List Nat → List Nat
  | [] => []
  | n :: rest => n :: signal_walk rest

/-- Model of `CellLocker::wakeup` end to end: the nodes signalled, in order, or
`none` when the trace ran out before the detach loop resolved. -/
def wakeup (observed : List Nat) (actuals : List (List Nat)) : Option (List Nat) :=
  match wakeup_detach observed actuals with
  | .detached q => some (signal_walk q)
  | .emptyObserved => some []
  | .pending _ => none

/-- Pushing a wait node onto the wait-queue head: the successful CAS of
`wait_exclusive`'s insertion loop links the node to the observed head and
installs the node as the new head (LIFO). -/
def push_wait (node : Nat) (head : List Nat) : List Nat := node :: head

/-- The signal walk visits exactly the detached nodes in list order. -/
theorem signal_walk_id (q : List Nat) : signal_walk q = q := by
  induction q with
  | nil => rfl
  | cons n rest ih => rw [signal_walk, ih]

/-- Claim C6: wakeup atomically swaps the wait-list head to null (retrying
while concurrent pushes change the observed head; signalling nothing when
the observed head is null) and then signals every node of the detached
list exactly once, in list (LIFO) order; nodes not in the detached list —
in particular nodes pushed after the successful swap — are not signalled
by this wakeup call. -/
theorem claim_C6_wakeup (observed : List Nat) (actuals : List (List Nat)) :
    (∀ q, wakeup_detach observed actuals = .detached q →
      wakeup observed actuals = some (signal_walk q) ∧
      signal_walk q = q ∧
      (∀ n, List.count n (signal_walk q) = List.count n q) ∧
      (∀ n, n ∉ q → n ∉ signal_walk q)) ∧
    (wakeup_detach observed actuals = .emptyObserved →
      wakeup observed actuals = some []) ∧
    (∀ a rest, actuals = a :: rest → a ≠ observed → a ≠ [] →
      wakeup_detach observed actuals = wakeup_detach a rest) ∧
    (∀ rest, actuals = [] :: rest → [] ≠ observed →
      wakeup observed actuals = some []) := by
  refine ⟨?_, ?_, ?_, ?_⟩
  · intro q h
    have hi := signal_walk_id q
    refine ⟨?_, hi, fun n => by rw [hi], fun n hn => by rw [hi]; exact hn⟩
    rw [wakeup, h]
  · intro h
    rw [wakeup, h]
  · intro a rest heq h1 h2
    subst heq
    rw [wakeup_detach, if_neg h1, if_neg h2]
  · intro rest heq h1
    subst heq
    rw [wakeup, wakeup_detach, if_neg h1, if_pos rfl]

/-- Concrete instance of claim C6: detaching the two-node queue signals
exactly those two nodes, in LIFO order, and no other node. -/
theorem claim_C6_witness :
    wakeup_detach [1, 2] [[1, 2]] = .detached [1, 2] ∧
    wakeup [1, 2] [[1, 2]] = some [1, 2] ∧
    List.count 1 (signal_walk [1, 2]) = List.count 1 [1, 2] ∧
    (3 : Nat) ∉ signal_walk [1, 2] := by
  have h := (claim_C6_wakeup [1, 2] [[1, 2]]).1 [1, 2] (by decide)
  refine ⟨by decide, ?_, h.2.2.1 1, h.2.2.2 3 (by decide)⟩
  rw [h.1, h.2.1]

/-- Observable events of the blocking acquisition path, in order. -/
inductive Event where
  | lockAttempt
  | signalled (node : Nat)
deriving DecidableEq

/-- Result of `CellLocker::wait_exclusive`: the guard (if acquired), the
cell's lock word, the wait-queue head, and the events in order. -/
structure WaitOutcome where
  locked : Option Nat
  word : Nat
  queue : List Nat
  events : List Event
deriving DecidableEq

/-- Sequential (interference-free) model of `CellLocker::wait_exclusive`:
with the cell's word at `w` and wait queue at `q`, the thread pushes its
node `self` onto the head, retries `try_lock_exclusive` exactly once, and
when the retry succeeds invokes `wakeup` — detaching and signalling the
whole queue, own node included — before the guard is returned; when the
retry fails it parks on the node, leaving the queue intact. -/
def wait_exclusive (w : Nat) (q : List Nat) (self : Nat) : WaitOutcome :=
  match try_lock_exclusive w [w] with
  | .acquired _ nw meta =>
    match wakeup (push_wait self q) [push_wait self q] with
    | some sigs => ⟨some meta, nw, [], .lockAttempt :: sigs.map .signalled⟩
    | none => ⟨some meta, nw, [], [.lockAttempt]⟩
  | _ => ⟨none, w, push_wait self q, [.lockAttempt]⟩

/-- A quiescent wakeup on the head it just observed detaches and signals
exactly that list. -/
theorem wakeup_self (l : List Nat) : wakeup l [l] = some l := by
  rw [wakeup, wakeup_detach, if_pos rfl]
  show some (signal_walk l) = some l
  rw [signal_walk_id]

/-- The signal events of a walk contain no lock attempt. -/
theorem count_lockAttempt_map (l : List Nat) :
    List.count Event.lockAttempt (l.map Event.signalled) = 0 := by
  rw [List.count_eq_zero]
  intro hmem
  obtain ⟨a, _, ha⟩ := List.mem_map.mp hmem
  exact absurd ha (by simp)

/-- Claim C7: in the blocking path, after the node is pushed the
non-blocking attempt is retried exactly once, and whenever that retry
succeeds the wakeup protocol runs — signalling every currently queued
node, the thread's own node included — before the guard is returned. -/
theorem claim_C7_wait_exclusive (w : Nat) (q : List Nat) (self : Nat)
    (hw : w < U32) :
    List.count Event.lockAttempt (wait_exclusive w q self).events = 1 ∧
    (w &&& Cell.XLOCK = 0 →
      wait_exclusive w q self =
        ⟨some (w ||| Cell.XLOCK), w ||| Cell.XLOCK, [],
          Event.lockAttempt :: (push_wait self q).map Event.signalled⟩ ∧
      Event.signalled self ∈ (wait_exclusive w q self).events) ∧
    (w &&& Cell.XLOCK = Cell.XLOCK →
      wait_exclusive w q self = ⟨none, w, push_wait self q, [Event.lockAttempt]⟩) := by
  by_cases hx : w &&& Cell.XLOCK = 0
  · have ht := try_lock_free w hw hx
    have he : wait_exclusive w q self =
        ⟨some (w ||| Cell.XLOCK), w ||| Cell.XLOCK, [],
          Event.lockAttempt :: (push_wait self q).map Event.signalled⟩ := by
      simp only [wait_exclusive, ht, wakeup_self]
    refine ⟨?_, fun _ => ⟨he, ?_⟩, fun hxx => ?_⟩
    · rw [he]
      simp [List.count_cons, count_lockAttempt_map]
    · rw [he]
      simp [push_wait]
    · rw [hx] at hxx
      exact absurd hxx (by decide)
  · have hw' : w < 2 ^ 32 := hw
    have hxa : w / 2 ^ 31 % 2 * 2 ^ 31 ≠ 0 := by
      rw [← land_XLOCK_eq]
      exact hx
    have hxx : w &&& Cell.XLOCK = Cell.XLOCK := by
      rw [land_XLOCK_eq, XLOCK_val]
      omega
    have ht := try_lock_busy w hw hxx
    have he : wait_exclusive w q self = ⟨none, w, push_wait self q, [Event.lockAttempt]⟩ := by
      simp only [wait_exclusive, ht]
    refine ⟨?_, fun h0 => absurd h0 hx, fun _ => he⟩
    rw [he]
    show List.count Event.lockAttempt [Event.lockAttempt] = 1
    decide

/-- Concrete instance of claim C7: a late retry on the free word 66 with
one parked node signals both that node and the thread's own node. -/
theorem claim_C7_witness :
    (66 : Nat) < U32 ∧
    List.count Event.lockAttempt (wait_exclusive 66 [9] 4).events = 1 ∧
    (66 : Nat) &&& Cell.XLOCK = 0 ∧
    wait_exclusive 66 [9] 4 =
      ⟨some (66 ||| Cell.XLOCK), 66 ||| Cell.XLOCK, [],
        Event.lockAttempt :: (push_wait 4 [9]).map Event.signalled⟩ ∧
    Event.signalled 4 ∈ (wait_exclusive 66 [9] 4).events := by
  have h := claim_C7_wait_exclusive 66 [9] 4 (by decide)
  have h2 := h.2.1 (by decide)
  exact ⟨by decide, h.1, by decide, h2.1, h2.2⟩

/-- The shared state of one Cell in the interleaved multi-thread
semantics: the lock word and the metadata of each live guard. -/
structure SysState where
  word : Nat
  holders : List Nat
deriving DecidableEq

/-- One atomic step of the interleaved semantics: a successful acquisition
CAS (from any, possibly stale, `current`; the CAS itself observes the true
word), creating a live guard, or the successful release CAS of a live
guard's `drop`, destroying it. Failed CAS attempts leave the shared state
unchanged and are omitted as stutter steps. -/
inductive SysStep : SysState → SysState → Prop where
  | acquire {s : SysState} (cur : Nat) {old nw meta : Nat} :
      cur < U32 →
      try_lock_exclusive cur [s.word] = .acquired old nw meta →
      SysStep s ⟨nw, meta :: s.holders⟩
  | release {s : SysState} (m : Nat) {nw : Nat} :
      m ∈ s.holders →
      drop_locker s.word [s.word] = .installed s.word nw →
      SysStep s ⟨nw, s.holders.erase m⟩

/-- System states reachable from a default-constructed Cell. -/
inductive SysReach : SysState → Prop where
  | init : SysReach ⟨0, []⟩
  | step {s t : SysState} : SysReach s → SysStep s t → SysReach t

/-- A one-CAS acquisition succeeds exactly against the word with the
exclusive bit cleared, and installs and records `cur ||| XLOCK`. -/
theorem try_single_acquired {cur w old nw meta : Nat}
    (h : try_lock_exclusive cur [w] = .acquired old nw meta) :
    w = cur &&& compl32 Cell.XLOCK ∧ old = w ∧ nw = cur ||| Cell.XLOCK ∧
    meta = w ||| Cell.XLOCK := by
  rw [try_lock_exclusive] at h
  by_cases hif : w = cur &&& compl32 Cell.XLOCK
  · rw [if_pos hif] at h
    injection h with h1 h2 h3
    exact ⟨hif, h1.symm, h2.symm, h3.symm⟩
  · rw [if_neg hif] at h
    by_cases hx : w &&& Cell.XLOCK = Cell.XLOCK
    · rw [if_pos hx] at h
      exact absurd h (by simp)
    · rw [if_neg hx, try_lock_exclusive] at h
      exact absurd h (by simp)

/-- A one-CAS release installs `release_word` of the current word and
presupposes the lock-bit assertion. -/
theorem drop_single_installed {w old nw : Nat}
    (h : drop_locker w [w] = .installed old nw) :
    w &&& Cell.LOCK_MASK ≠ 0 ∧ old = w ∧ nw = release_word w := by
  rw [drop_locker] at h
  by_cases hz : w &&& Cell.LOCK_MASK = 0
  · rw [if_pos hz] at h
    exact absurd h (by simp)
  · rw [if_neg hz, if_pos rfl] at h
    injection h with h1 h2
    exact ⟨hz, h1.symm, h2.symm⟩

/-- Setting the exclusive bit leaves it set. -/
theorem lor_XLOCK_land (c : Nat) :
    (c ||| Cell.XLOCK) &&& Cell.XLOCK = Cell.XLOCK := by
  apply Nat.eq_of_testBit_eq
  intro i
  simp only [Nat.testBit_and, Nat.testBit_or, XLOCK_val, Nat.testBit_two_pow]
  by_cases h : 31 = i
  · simp [h]
  · simp [h]

/-- Invariant of the interleaved semantics: the word stays a `u32`, and
either no guard is live and the exclusive bit is clear, or exactly one
guard is live, recording the current word, whose exclusive bit is set. -/
theorem sys_invariant {s : SysState} (h : SysReach s) :
    s.word < U32 ∧
    ((s.holders = [] ∧ s.word &&& Cell.XLOCK = 0) ∨
     (s.holders = [s.word] ∧ s.word &&& Cell.XLOCK = Cell.XLOCK)) := by
  induction h with
  | init => exact ⟨by decide, Or.inl ⟨rfl, by decide⟩⟩
  | step hr hs ih =>
    rename_i s t
    obtain ⟨hlt, hcase⟩ := ih
    have hlt' : s.word < 2 ^ 32 := hlt
    cases hs with
    | acquire cur hcur htry =>
      rename_i old nw meta
      obtain ⟨hword, hold, hnw, hmeta⟩ := try_single_acquired htry
      have hword' : s.word = cur % 2 ^ 31 := by
        rw [hword, land_compl_XLOCK_eq]
      have hx0 : s.word &&& Cell.XLOCK = 0 := by
        rw [land_XLOCK_eq, hword']
        omega
      have hmeta' : meta = cur ||| Cell.XLOCK := by
        rw [hmeta, hword', mod31_lor_XLOCK cur hcur]
      show nw < U32 ∧
        ((meta :: s.holders = [] ∧ nw &&& Cell.XLOCK = 0) ∨
         (meta :: s.holders = [nw] ∧ nw &&& Cell.XLOCK = Cell.XLOCK))
      rcases hcase with ⟨hh, _⟩ | ⟨hh, hxx⟩
      · refine ⟨?_, Or.inr ⟨?_, ?_⟩⟩
        · rw [hnw]
          exact @Nat.or_lt_two_pow cur Cell.XLOCK 32 hcur (by decide)
        · rw [hh, hmeta', hnw]
        · rw [hnw]
          exact lor_XLOCK_land cur
      · rw [hx0] at hxx
        exact absurd hxx (by decide)
    | release m hm hdrop =>
      rename_i nw
      obtain ⟨hassert, hold, hnw⟩ := drop_single_installed hdrop
      show nw < U32 ∧
        ((s.holders.erase m = [] ∧ nw &&& Cell.XLOCK = 0) ∨
         (s.holders.erase m = [nw] ∧ nw &&& Cell.XLOCK = Cell.XLOCK))
      rcases hcase with ⟨hh, hxx⟩ | ⟨hh, hxx⟩
      · rw [hh] at hm
        exact absurd hm (by simp)
      · rw [hh] at hm
        have hms : m = s.word := by simpa using hm
        have hrel : release_word s.word = s.word % 2 ^ 31 := by
          rw [release_word, if_pos hxx, land_compl_XLOCK_eq]
        refine ⟨?_, Or.inl ⟨?_, ?_⟩⟩
        · show nw < 2 ^ 32
          rw [hnw, hrel]
          omega
        · rw [hms, hh]
          simp
        · rw [hnw, hrel, land_XLOCK_eq]
          omega

/-- Claim C8: mutual exclusion — in every reachable state of the
interleaved semantics at most one live exclusive guard exists on the Cell,
so the critical sections of two exclusive acquirers never overlap. -/
theorem claim_C8_mutual_exclusion (s : SysState) (h : SysReach s) :
    s.holders.length ≤ 1 := by
  rcases (sys_invariant h).2 with ⟨hh, _⟩ | ⟨hh, _⟩ <;> rw [hh] <;> simp

/-- Concrete instance of claim C8: the state after one thread acquires a
fresh Cell is reachable and carries exactly one live guard. -/
theorem claim_C8_witness :
    SysReach ⟨Cell.XLOCK, [Cell.XLOCK]⟩ ∧
    (SysState.mk Cell.XLOCK [Cell.XLOCK]).holders.length ≤ 1 := by
  have hr : SysReach ⟨Cell.XLOCK, [Cell.XLOCK]⟩ :=
    SysReach.step SysReach.init
      (@SysStep.acquire ⟨0, []⟩ 0 0 Cell.XLOCK Cell.XLOCK (by decide) (by decide))
  exact ⟨hr, claim_C8_mutual_exclusion _ hr⟩

end CellSpec
